import Mathlib

set_option maxHeartbeats 1000000

/-! Verification of the marker-rewriting core of a Vite plugin for DNN
skins (`vite-plugin-dnn-ascx`).

Text is modelled as `List Char`.  The default marker pattern
`<!--\s*@vite:entry\s+([^\s]+)\s*-->` (source line 265) is embedded as an
executable matcher with JavaScript backtracking semantics, and the
JavaScript builtin `String.prototype.replace` with a global regex and a
callback is embedded as a left-to-right scan over non-overlapping
matches.  Node `path` builtins (`resolve`, `relative`, `join`,
`basename`) are embedded in their POSIX form over segment lists.
File-system reads are modelled by passing file contents as values, and
writes as effect values. -/

namespace DnnAscx

/-- Characters matched by the JavaScript regex class `\s`. -/
def isJsWs (c : Char) : Bool :=
  c == ' ' || c == '\t' || c == '\n' || c == '\r' || c == '\x0b' ||
  c == '\x0c' || c == '\u00A0' || c == '\u1680' ||
  (0x2000 ≤ c.toNat && c.toNat ≤ 0x200A) ||
  c == '\u2028' || c == '\u2029' || c == '\u202F' || c == '\u205F' ||
  c == '\u3000' || c == '\uFEFF'

/-- Boolean list-prefix test (used both for literal pieces of the marker
pattern and for the string method `startsWith`). -/
def isPfx {α : Type} [DecidableEq α] : List α → List α → Bool
  | [], _ => true
  | _ :: _, [] => false
  | a :: as, b :: bs => a = b && isPfx as bs

/-- After the capture group `([^\s]+)` the marker pattern continues
`\s*-->`.  Since `-` is not whitespace, the greedy `\s*` with
backtracking succeeds exactly when the text after the maximal whitespace
run starts with the literal `-->`.  Returns the number of characters
consumed by `\s*-->`. -/
def markerClose (t : List Char) : Option Nat :=
  let w := (t.takeWhile isJsWs).length
  if isPfx (("-->").toList) (t.drop w) then some (w + 3) else none

/-- Greedy backtracking for `([^\s]+)\s*-->`: the capture takes the
longest nonempty prefix of the maximal non-whitespace run for which the
rest of the pattern still matches.  `run` is that maximal run and `rest`
the text after it; the first argument is the candidate capture length,
tried from the longest down.  Returns (capture length, characters
consumed from the start of the run). -/
def bestCapture : Nat → List Char → List Char → Option (Nat × Nat)
  | 0, _, _ => none
  | k + 1, run, rest =>
    match markerClose (run.drop (k + 1) ++ rest) with
    | some n => some (k + 1, k + 1 + n)
    | none => bestCapture k run rest

/-- Matches `\s*@vite:entry\s+([^\s]+)\s*-->`, i.e. the default marker
pattern after its literal `<!--`, at the head of the text.  Returns
(characters consumed, captured reference). -/
def markerAfterOpen (cs : List Char) : Option (Nat × List Char) :=
  let ws1 := (cs.takeWhile isJsWs).length
  let r2 := cs.drop ws1
  if isPfx (("@vite:entry").toList) r2 then
    let r3 := r2.drop 11
    match r3 with
    | [] => none
    | c :: _ =>
      if isJsWs c then
        let ws2 := (r3.takeWhile isJsWs).length
        let r4 := r3.drop ws2
        let run := r4.takeWhile (fun d => !isJsWs d)
        match bestCapture run.length run (r4.drop run.length) with
        | some (k, consumed) => some (ws1 + 11 + ws2 + consumed, run.take k)
        | none => none
      else none
  else none

/-- One attempted match of the default marker pattern
`<!--\s*@vite:entry\s+([^\s]+)\s*-->` at the head of the text.  Returns
(length of the matched substring, captured reference). -/
def matchMarkerAt (cs : List Char) : Option (Nat × List Char) :=
  if isPfx (("<!--").toList) cs then
    (markerAfterOpen (cs.drop 4)).map (fun p => (4 + p.1, p.2))
  else none

/-- One segment of a decomposed text: the plain text before a match, the
matched marker substring itself, and the captured reference. -/
abbrev Seg := List Char × List Char × List Char

/-- Decomposition of a text into the segments found by a left-to-right
scan for non-overlapping matches of the marker pattern, exactly as the
JavaScript global-regex scan visits them, plus the plain tail after the
last match.  `fuel` is an upper bound on the number of scan steps; every
step consumes at least one character, so `fuel = cs.length` (see
`markerSegs`) never runs out — any match of the pattern is at least 19
characters long. -/
def markerSegsAux : Nat → List Char → List Seg × List Char
  | 0, cs => ([], cs)
  | _ + 1, [] => ([], [])
  | fuel + 1, c :: cs =>
    match matchMarkerAt (c :: cs) with
    | some (len, cap) =>
      let r := markerSegsAux fuel ((c :: cs).drop len)
      (([], (c :: cs).take len, cap) :: r.1, r.2)
    | none =>
      match markerSegsAux fuel cs with
      | ([], t) => ([], c :: t)
      | (s :: segs, t) => ((c :: s.1, s.2.1, s.2.2) :: segs, t)

/-- The ordered marker occurrences of a text together with the plain
text around them. -/
def markerSegs (cs : List Char) : List Seg × List Char :=
  markerSegsAux cs.length cs

/-- Embedding of the JavaScript builtin `text.replace(marker, cb)` for
the global default marker pattern, where the callback `cb` receives the
captured group and additionally threads a state of type `σ` (the plugin
uses a closure over a mutable `injectedClient` flag; threading the state
makes that explicit).  Scans left to right, replacing each
non-overlapping match by the callback result. -/
def jsReplaceStAux {σ : Type} (f : σ → List Char → List Char × σ) :
    Nat → σ → List Char → List Char
  | 0, _, cs => cs
  | _ + 1, _, [] => []
  | fuel + 1, s, c :: cs =>
    match matchMarkerAt (c :: cs) with
    | some (len, cap) =>
      let r := f s cap
      r.1 ++ jsReplaceStAux f fuel r.2 ((c :: cs).drop len)
    | none => c :: jsReplaceStAux f fuel s cs

/-- `text.replace(marker, cb)` with a state-threading callback. -/
def jsReplaceSt {σ : Type} (f : σ → List Char → List Char × σ)
    (s : σ) (cs : List Char) : List Char :=
  jsReplaceStAux f cs.length s cs

/-- Reassembles a decomposition: plain text and matched substrings in
order, followed by the tail. -/
def segsJoin (p : List Seg × List Char) : List Char :=
  (p.1.map (fun s => s.1 ++ s.2.1)).flatten ++ p.2

/-- Reassembles a decomposition with every matched substring replaced by
the callback output for its capture, threading the callback state in
occurrence order. -/
def replFold {σ : Type} (f : σ → List Char → List Char × σ) :
    σ → List Seg → List Char
  | _, [] => []
  | s, sg :: segs =>
    let r := f s sg.2.2
    sg.1 ++ r.1 ++ replFold f r.2 segs

/-! ## Node `path` builtins (POSIX model) -/

/-- Splits a path on `/`; inverse-ish of `joinSeg`. -/
def splitSegAux (cur : List Char) : List Char → List (List Char)
  | [] => [cur.reverse]
  | c :: cs =>
    if c = '/' then cur.reverse :: splitSegAux [] cs
    else splitSegAux (c :: cur) cs

/-- Splits a path on `/`. -/
def splitSeg (p : List Char) : List (List Char) := splitSegAux [] p

/-- Joins path segments with `/`. -/
def joinSeg : List (List Char) → List Char
  | [] => []
  | [s] => s
  | s :: rest => s ++ '/' :: joinSeg rest

/-- Normalizes the segments of an absolute path: drops empty and `.`
segments and resolves `..` against the accumulated stack (at the root,
`..` stays at the root, as in POSIX). -/
def normStack (acc : List (List Char)) : List (List Char) → List (List Char)
  | [] => acc.reverse
  | s :: rest =>
    if s = [] || s = ('.' :: []) then normStack acc rest
    else if s = ('.' :: '.' :: []) then normStack acc.tail rest
    else normStack (s :: acc) rest

/-- Normalizes the segments of a relative path: `..` segments that
cannot be cancelled are kept at the front (node `path.normalize`). -/
def normStackRel (acc : List (List Char)) : List (List Char) → List (List Char)
  | [] => acc.reverse
  | s :: rest =>
    if s = [] || s = ('.' :: []) then normStackRel acc rest
    else if s = ('.' :: '.' :: []) then
      match acc with
      | [] => normStackRel (s :: acc) rest
      | t :: acc2 =>
        if t = ('.' :: '.' :: []) then normStackRel (s :: acc) rest
        else normStackRel acc2 rest
    else normStackRel (s :: acc) rest

/-- True when the path is absolute (POSIX): it starts with `/`. -/
def isAbsL : List Char → Bool
  | [] => false
  | c :: _ => c = '/'

/-- The normalized segments of a path resolved against `cwd`. -/
def segsOfAbs (cwd p : List Char) : List (List Char) :=
  normStack [] (splitSeg (if isAbsL p then p else cwd ++ '/' :: p))

/-- Node `path.resolve(p)` (POSIX), with the process working directory
`cwd` explicit: resolves `p` against `cwd` and normalizes. -/
def pathResolve (cwd p : List Char) : List Char :=
  '/' :: joinSeg (segsOfAbs cwd p)

/-- Node `path.relative(f, t)` (POSIX), with the working directory
explicit: both arguments resolved, common leading segments dropped, one
`..` per remaining segment of `f`, then the remaining segments of
`t`. -/
def dropCommon : List (List Char) → List (List Char) → List (List Char) × List (List Char)
  | a :: as, b :: bs =>
    if a = b then dropCommon as bs else (a :: as, b :: bs)
  | as, bs => (as, bs)

def pathRelative (cwd f t : List Char) : List Char :=
  let p := dropCommon (segsOfAbs cwd f) (segsOfAbs cwd t)
  joinSeg (List.replicate p.1.length ('.' :: '.' :: []) ++ p.2)

/-- Node `path.join(a, b)` (POSIX): concatenates with a separator and
normalizes, keeping uncancelled leading `..` when the result is
relative. -/
def pathJoin (a b : List Char) : List Char :=
  let joined := a ++ '/' :: b
  if isAbsL joined then '/' :: joinSeg (normStack [] (splitSeg joined))
  else
    match normStackRel [] (splitSeg joined) with
    | [] => ['.']
    | segs => joinSeg segs

/-- Node `path.basename(p)` (POSIX): strips trailing separators, then
keeps everything after the last separator. -/
def baseName (p : List Char) : List Char :=
  let q := (p.reverse.dropWhile (fun c => c = '/')).reverse
  (q.reverse.takeWhile (fun c => c != '/')).reverse

/-! ## The plugin's own path helpers -/

/-- JavaScript `String.prototype.toLowerCase`, per character (the paths
the plugin lower-cases are ASCII file paths; non-ASCII characters are
kept). -/
def jsToLower (c : Char) : Char :=
  if 'A' ≤ c ∧ c ≤ 'Z' then Char.ofNat (c.toNat + 32) else c

/-- `norm` (source lines 272..274):
`p.replace(/\\/g, "/").replace(/\/+$/, "").toLowerCase()` — every
backslash becomes a slash, the maximal trailing run of slashes is
removed, and the whole string is lower-cased. -/
def norm (p : List Char) : List Char :=
  ((((p.map (fun c => if c = '\\' then '/' else c)).reverse.dropWhile
      (fun c => c = '/')).reverse).map jsToLower)

/-- `absPath` (source lines 276..278):
`norm(path.isAbsolute(p) ? p : path.resolve(p))`. -/
def absPath (cwd p : List Char) : List Char :=
  norm (if isAbsL p then p else pathResolve cwd p)

/-- JavaScript `p.replace(/^\//, "")`: strips at most one leading
slash. -/
def stripLeadSlash (p : List Char) : List Char :=
  match p with
  | c :: rest => if c = '/' then rest else p
  | [] => []

/-- `toPublicUrl` (source lines 309..312) with the resolved base string
(`opts.publicBase ?? config.base ?? "/"`) explicit:
`base.replace(/\/?$/, "/") + p.replace(/^\//, "")` — the first replace
appends a `/` unless the base already ends with one (it rewrites at most
one trailing slash), the second strips at most one leading slash. -/
def toPublicUrl (base p : List Char) : List Char :=
  (if (base.reverse.head?).any (fun c => c = '/') then base
   else base ++ ('/' :: [])) ++ stripLeadSlash p

/-- Boolean list-suffix test (the string method `endsWith`). -/
def isSfx {α : Type} [DecidableEq α] (s l : List α) : Bool :=
  isPfx s.reverse l.reverse

/-! ## Plugin data model -/

/-- The plugin runs either under `vite serve` or `vite build`
(`mode: "dev" | "build"` in the source). -/
inductive Mode
  | dev
  | build
deriving DecidableEq, Repr

/-- The part of a Rollup `OutputChunk` the plugin reads: whether it is
an entry chunk, its originating module (`facadeModuleId`), its final
hashed file name, and the CSS files recorded in
`viteMetadata.importedCss` (a `Set`, modelled as a list in its insertion
order). -/
structure OutputChunk where
  isEntry : Bool
  facadeModuleId : Option (List Char)
  fileName : List Char
  importedCss : List (List Char)
deriving DecidableEq, Repr

/-- An item of the Rollup `OutputBundle` (`Object.values(bundle)`,
modelled as a list in enumeration order). -/
inductive BundleItem
  | chunk (c : OutputChunk)
  | asset (fileName : List Char)
deriving DecidableEq, Repr

/-- `DnnAscxRenderContext` (source lines 22..97). -/
structure RenderCtx where
  mode : Mode
  ascxPath : List Char
  entryFromMarker : List Char
  entryAbs : List Char
  jsUrl : List Char
  cssUrls : List (List Char)
  devClientUrl : Option (List Char)
  chunk : Option OutputChunk
deriving DecidableEq, Repr

/-- `getChunkBySourceEntry` (source lines 292..307): the first entry
chunk of the bundle whose `facadeModuleId` resolves to `entryAbs`. -/
def getChunkBySourceEntry (cwd : List Char) :
    List BundleItem → List Char → Option OutputChunk
  | [], _ => none
  | BundleItem.asset _ :: rest, entryAbs => getChunkBySourceEntry cwd rest entryAbs
  | BundleItem.chunk c :: rest, entryAbs =>
    if c.isEntry then
      match c.facadeModuleId with
      | some fid =>
        if pathResolve cwd fid = entryAbs then some c
        else getChunkBySourceEntry cwd rest entryAbs
      | none => getChunkBySourceEntry cwd rest entryAbs
    else getChunkBySourceEntry cwd rest entryAbs

/-! ## Dev rewrite engine -/

/-- The `DnnAscxRenderContext` built by `rewriteAscxForDev` for one
marker occurrence (source lines 359..372).  `injectedClient` is the
state of the closure variable of that name when the occurrence is
processed: the dev-client URL is supplied only while it is still
`false`. -/
def devRenderCtx (cwd ascxAbs devOrigin : List Char) (injectedClient : Bool)
    (entryFromMarker : List Char) : RenderCtx :=
  let entry := stripLeadSlash entryFromMarker
  { mode := Mode.dev
    ascxPath := ascxAbs
    entryFromMarker := entryFromMarker
    entryAbs := pathResolve cwd entryFromMarker
    jsUrl := devOrigin ++ '/' :: entry
    cssUrls := []
    devClientUrl :=
      if injectedClient then none
      else some (devOrigin ++ (("/@vite/client").toList))
    chunk := none }

/-- The replacement callback of `rewriteAscxForDev`: renders the context
and sets `injectedClient` to `true` (source lines 359..376). -/
def devCb (render : RenderCtx → List Char) (cwd ascxAbs devOrigin : List Char) :
    Bool → List Char → List Char × Bool :=
  fun injectedClient entryFromMarker =>
    (render (devRenderCtx cwd ascxAbs devOrigin injectedClient entryFromMarker), true)

/-- `rewriteAscxForDev` (source lines 347..377).  The guard
`if (!marker.test(original)) return original` — existence of a match —
is embedded as non-emptiness of the occurrence list; the
`marker.lastIndex = 0` resets around it make the shared regex object
stateless across calls, which the embedding reflects by being
stateless. -/
def rewriteAscxForDev (render : RenderCtx → List Char) (cwd : List Char)
    (original ascxAbs devOrigin : List Char) : List Char :=
  if (markerSegs original).1.isEmpty then original
  else jsReplaceSt (devCb render cwd ascxAbs devOrigin) false original

/-! ## Build rewrite engine -/

/-- The `DnnAscxRenderContext` built in `generateBundle` for one marker
occurrence whose chunk was found (source lines 564..572). -/
def buildRenderCtx (fAbs entryFromMarker entryAbs jsUrl : List Char)
    (cssUrls : List (List Char)) (c : OutputChunk) : RenderCtx :=
  { mode := Mode.build
    ascxPath := fAbs
    entryFromMarker := entryFromMarker
    entryAbs := entryAbs
    jsUrl := jsUrl
    cssUrls := cssUrls
    devClientUrl := none
    chunk := some c }

/-- The diagnostic placeholder written for a marker whose entry has no
bundle chunk (source line 553). -/
def missingEntryComment (entryFromMarker : List Char) : List Char :=
  (("<!-- vite:missing-entry ").toList) ++ entryFromMarker ++ ((" -->").toList)

/-- The replacement callback of the build rewrite (source lines
550..573); `base` is the resolved public base
(`opts.publicBase ?? config.base ?? "/"`). -/
def buildCb (render : RenderCtx → List Char) (bundle : List BundleItem)
    (cwd base fAbs : List Char) : Unit → List Char → List Char × Unit :=
  fun _ entryFromMarker =>
    let entryAbs := pathResolve cwd entryFromMarker
    match getChunkBySourceEntry cwd bundle entryAbs with
    | none => (missingEntryComment entryFromMarker, ())
    | some c =>
      let jsUrl := toPublicUrl base c.fileName
      let cssUrls := c.importedCss.map (toPublicUrl base)
      (render (buildRenderCtx fAbs entryFromMarker entryAbs jsUrl cssUrls c), ())

/-- The text written for one template file by `generateBundle` (source
lines 536..577): files without a marker are mirrored verbatim, the rest
are rewritten through the marker replace. -/
def buildRewriteText (render : RenderCtx → List Char) (bundle : List BundleItem)
    (cwd base fAbs original : List Char) : List Char :=
  if (markerSegs original).1.isEmpty then original
  else jsReplaceSt (buildCb render bundle cwd base fAbs) () original

/-- The output path computed by `writeMirrored` (source lines 322..332):
the source path relative to `ascxRootDir`, falling back to the base name
when the relative path starts with `..`, joined under `outDir`.  (The
`mkdirSync`/`writeFileSync` side effects write exactly to this path.) -/
def mirrorOutPath (cwd outDir ascxRootDir absFilePath : List Char) : List Char :=
  let rel := pathRelative cwd ascxRootDir absFilePath
  let safeRel := if isPfx ('.' :: '.' :: []) rel then baseName absFilePath else rel
  pathJoin outDir safeRel

/-- The writes performed by `generateBundle` (source lines 530..578),
one `(path, contents)` pair per discovered template file, in order;
`files` carries each file's content (`fs.readFileSync` is modelled by
passing the content alongside the path). -/
def generateBundleWrites (render : RenderCtx → List Char) (bundle : List BundleItem)
    (cwd base outAscxDir ascxRootDir : List Char)
    (files : List (List Char × List Char)) : List (List Char × List Char) :=
  let outDir := pathResolve cwd outAscxDir
  files.map (fun fc =>
    (mirrorOutPath cwd outDir ascxRootDir fc.1,
     buildRewriteText render bundle cwd base fc.1 fc.2))

/-! ## Configuration step (build branch) -/

/-- JavaScript regex class `\w`. -/
def wordChar (c : Char) : Bool :=
  ('a' ≤ c ∧ c ≤ 'z') || ('A' ≤ c ∧ c ≤ 'Z') || ('0' ≤ c ∧ c ≤ '9') || c = '_'

/-- The Rollup input key for one entry (source lines 449..451):
`path.relative(process.cwd(), entryAbs).replace(/[^\w]/g, "_")`. -/
def entryKey (cwd entryAbs : List Char) : List Char :=
  (pathRelative cwd cwd entryAbs).map (fun c => if wordChar c then c else '_')

/-- JavaScript object property assignment `obj[key] = v` on an object
modelled as an association list in insertion order. -/
def upsert (k v : List Char) :
    List (List Char × List Char) → List (List Char × List Char)
  | [] => [(k, v)]
  | (k2, v2) :: rest =>
    if k2 = k then (k, v) :: rest else (k2, v2) :: upsert k v rest

/-- The captured references of a file's marker occurrences, in text
order (the `while ((m = marker.exec(content)))` loop, source lines
446..454). -/
def fileCaptures (content : List Char) : List (List Char) :=
  (markerSegs content).1.map (fun sg => sg.2.2)

/-- The `inputs` record built by the `config` hook in build mode (source
lines 439..455). -/
def collectInputs (cwd : List Char) (files : List (List Char × List Char)) :
    List (List Char × List Char) :=
  files.foldl (fun acc fc =>
    (fileCaptures fc.2).foldl (fun acc2 cap =>
      upsert (entryKey cwd (pathResolve cwd cap)) (pathResolve cwd cap) acc2) acc) []

/-- The build branch of the `config` hook after discovery (source lines
438..468): collects the Rollup inputs and fails when
`requireAtLeastOneEntry` is set and none were found; otherwise
configuration proceeds with the collected inputs. -/
def configBuild (requireAtLeastOneEntry : Bool) (cwd : List Char)
    (files : List (List Char × List Char)) :
    Except (List Char) (List (List Char × List Char)) :=
  let inputs := collectInputs cwd files
  if requireAtLeastOneEntry && inputs.isEmpty then
    Except.error (("No @vite:entry markers found in ascx files.").toList)
  else Except.ok inputs

/-! ## File watch coordinator -/

/-- The externally visible effects of a watch-event handler, in the
order the synchronous handler body performs them: `write` is one
`writeMirrored(outDir, srcPath, contents)` call (its `mkdirSync` +
`writeFileSync` complete before the call returns), `reload` is
`server.ws.send({ type: "full-reload" })`. -/
inductive FsEffect
  | write (outDir srcPath contents : List Char)
  | reload
deriving DecidableEq, Repr

/-- The writes of `writeAllDevAscx` (source lines 379..390), one per
tracked template file, in order. -/
def writeAllDevAscxEffects (render : RenderCtx → List Char)
    (readFile : List Char → List Char)
    (cwd devOutAscxDir devOrigin : List Char)
    (allAscxFiles : List (List Char)) : List FsEffect :=
  let devOutAbs := pathResolve cwd devOutAscxDir
  allAscxFiles.map (fun ascxAbs =>
    FsEffect.write devOutAbs ascxAbs
      (rewriteAscxForDev render cwd (readFile ascxAbs) ascxAbs devOrigin))

/-- The `change` handler (source lines 485..505): a file under the
public directory is mirrored verbatim (with the public prefix
stripped), a tracked template file is rewritten and mirrored, anything
else is ignored; a reload is signalled after a successful mirror. -/
def onChangeEffects (render : RenderCtx → List Char)
    (readFile : List Char → List Char)
    (cwd publicDir devOutDir devOrigin : List Char)
    (allAscxFiles : List (List Char)) (file : List Char) : List FsEffect :=
  let abs := absPath cwd (file.map jsToLower)
  let absPublicDir := absPath cwd (publicDir.map jsToLower) ++ ('/' :: [])
  if isPfx absPublicDir abs then
    let original := readFile abs
    let dirWithoutPublicDir := absPath cwd (abs.drop absPublicDir.length)
    [FsEffect.write (absPath cwd devOutDir) dirWithoutPublicDir original,
     FsEffect.reload]
  else if isSfx ((".ascx").toList) abs then
    if !(allAscxFiles.contains abs) then []
    else
      let original := readFile abs
      let rewritten := rewriteAscxForDev render cwd original abs devOrigin
      [FsEffect.write (absPath cwd devOutDir) abs rewritten, FsEffect.reload]
  else []

/-- The `add` handler (source lines 509..517): re-discovers the file set
(`globResult` is what `fg.sync` returned), rewrites and mirrors every
tracked file, then signals a reload. -/
def onAddEffects (render : RenderCtx → List Char)
    (readFile : List Char → List Char)
    (cwd devOutAscxDir devOrigin : List Char)
    (globResult : List (List Char)) (file : List Char) : List FsEffect :=
  if isSfx ((".ascx").toList) (file.map jsToLower) then
    writeAllDevAscxEffects render readFile cwd devOutAscxDir devOrigin
      (globResult.map norm) ++ [FsEffect.reload]
  else []

/-- The `unlink` handler (source lines 519..527); its body is the same
as the `add` handler's. -/
def onUnlinkEffects (render : RenderCtx → List Char)
    (readFile : List Char → List Char)
    (cwd devOutAscxDir devOrigin : List Char)
    (globResult : List (List Char)) (file : List Char) : List FsEffect :=
  if isSfx ((".ascx").toList) (file.map jsToLower) then
    writeAllDevAscxEffects render readFile cwd devOutAscxDir devOrigin
      (globResult.map norm) ++ [FsEffect.reload]
  else []

/-! ## Derived notions used only in theorem statements -/

/-- The sequence of `DnnAscxRenderContext` values handed to the renderer
by one `rewriteAscxForDev` call, given the start value of the
`injectedClient` flag and the captured references in text order. -/
def devCtxList (cwd ascxAbs devOrigin : List Char) :
    Bool → List (List Char) → List RenderCtx
  | _, [] => []
  | s, cap :: rest =>
    devRenderCtx cwd ascxAbs devOrigin s cap ::
      devCtxList cwd ascxAbs devOrigin true rest

/-- Reassembles a decomposition with every matched substring replaced by
the rendering of the corresponding context. -/
def renderSegs (render : RenderCtx → List Char) :
    List Seg → List RenderCtx → List Char
  | [], _ => []
  | _ :: _, [] => []
  | sg :: segs, ctx :: ctxs => sg.1 ++ render ctx ++ renderSegs render segs ctxs

/-- What spec claim C6 asserts of the public-URL builder: the base with
its trailing separators removed, exactly one separator, then the
artifact name with its leading separators removed. -/
def oneSepJoin (base p : List Char) : List Char :=
  (base.reverse.dropWhile (fun c => c = '/')).reverse ++
    '/' :: p.dropWhile (fun c => c = '/')

/-- A clean path segment: nonempty, not `.`, not `..`, and without a
separator.  Segment lists produced by `normStack` on split paths consist
of clean segments. -/
def cleanSeg (s : List Char) : Bool :=
  !s.isEmpty && s ≠ ('.' :: []) && s ≠ ('.' :: '.' :: []) && !(s.contains '/')

/-- `p` lies inside the directory `d`: it is `d` itself or an extension
of `d` by a separator. -/
def insideDir (d p : List Char) : Bool :=
  p = d || isPfx ((d.reverse.dropWhile (fun c => c = '/')).reverse ++ ('/' :: [])) p

/-- `p` is a resolved path: absolute and normalized, i.e. a fixed point
of `path.resolve` (for absolute paths the resolution base is
irrelevant). -/
def isResolved (p : List Char) : Bool :=
  p = pathResolve ('/' :: []) p

/-- An effect trace in which every mirror write precedes the reload
signal: either nothing happened, or the trace is some writes followed by
exactly one final reload. -/
def mirrorsThenReloads (l : List FsEffect) : Prop :=
  l = [] ∨ ∃ w, (∀ e ∈ w, e ≠ FsEffect.reload) ∧ l = w ++ [FsEffect.reload]

/-! ## Scan lemmas -/

theorem markerSegsAux_recomp :
    ∀ (fuel : Nat) (cs : List Char), segsJoin (markerSegsAux fuel cs) = cs := by
  intro fuel
  induction fuel with
  | zero => intro cs; simp [markerSegsAux, segsJoin]
  | succ n ih =>
    intro cs
    cases cs with
    | nil => simp [markerSegsAux, segsJoin]
    | cons c cs =>
      cases h : matchMarkerAt (c :: cs) with
      | some p =>
        have h2 := ih ((c :: cs).drop p.1)
        simp only [markerSegsAux, h, segsJoin, List.map_cons, List.flatten_cons,
          List.nil_append, List.append_assoc] at h2 ⊢
        rw [h2, List.take_append_drop]
      | none =>
        have h2 := ih cs
        simp only [markerSegsAux, h]
        cases hr : markerSegsAux n cs with
        | mk segs t =>
          rw [hr] at h2
          cases segs with
          | nil =>
            simp only [segsJoin, List.map_nil, List.flatten_nil, List.nil_append] at h2 ⊢
            rw [h2]
          | cons s rest =>
            simp only [segsJoin, List.map_cons, List.flatten_cons,
              List.append_assoc, List.cons_append] at h2 ⊢
            rw [← h2]

/-- Decomposition correctness: the plain pieces and the matched marker
substrings, in order, reassemble the input text exactly. -/
theorem markerSegs_recomp (cs : List Char) : segsJoin (markerSegs cs) = cs :=
  markerSegsAux_recomp cs.length cs

theorem jsReplaceStAux_eq {σ : Type} (f : σ → List Char → List Char × σ) :
    ∀ (fuel : Nat) (s : σ) (cs : List Char),
      jsReplaceStAux f fuel s cs
        = replFold f s (markerSegsAux fuel cs).1 ++ (markerSegsAux fuel cs).2 := by
  intro fuel
  induction fuel with
  | zero => intro s cs; simp [jsReplaceStAux, markerSegsAux, replFold]
  | succ n ih =>
    intro s cs
    cases cs with
    | nil => simp [jsReplaceStAux, markerSegsAux, replFold]
    | cons c cs =>
      cases h : matchMarkerAt (c :: cs) with
      | some p =>
        have h2 := ih (f s p.2).2 ((c :: cs).drop p.1)
        simp only [jsReplaceStAux, markerSegsAux, h, replFold, List.nil_append,
          List.append_assoc]
        rw [h2]
      | none =>
        have h2 := ih s cs
        simp only [jsReplaceStAux, markerSegsAux, h]
        cases hr : markerSegsAux n cs with
        | mk segs t =>
          rw [hr] at h2
          cases segs with
          | nil =>
            simp only [replFold, List.nil_append] at h2 ⊢
            rw [h2]
          | cons sg rest =>
            simp only [replFold, List.cons_append, List.append_assoc] at h2 ⊢
            rw [h2]

/-- The replace scan equals: every matched substring replaced by the
callback output, everything else kept verbatim. -/
theorem jsReplaceSt_segs {σ : Type} (f : σ → List Char → List Char × σ)
    (s : σ) (cs : List Char) :
    jsReplaceSt f s cs = replFold f s (markerSegs cs).1 ++ (markerSegs cs).2 :=
  jsReplaceStAux_eq f cs.length s cs

/-- When a text has no marker occurrence, the decomposition's tail is
the whole text. -/
theorem markerSegs_empty_tail (text : List Char)
    (h : (markerSegs text).1 = []) : (markerSegs text).2 = text := by
  have h2 := markerSegs_recomp text
  unfold segsJoin at h2
  rw [h] at h2
  simpa using h2

/-! ## Claims -/

/-- C1: For every input text containing N marker occurrences, both the
dev rewrite (`rewriteAscxForDev`) and the build rewrite (the replacement
pass in `generateBundle`) produce an output in which each of the N
matched marker substrings is replaced by the callback's returned markup
exactly once (in occurrence order, threading the callback state), and
every character of the input not inside a matched marker substring — the
plain pieces and the tail of the decomposition — appears unchanged, in
the same order, in the output.  The first conjunct states that the
decomposition is exactly the input text; the other two give the outputs
as the same decomposition with only the matched substrings replaced. -/
theorem rewrite_replaces_each_marker_once
    (render : RenderCtx → List Char) (bundle : List BundleItem)
    (cwd base ascxAbs devOrigin fAbs text : List Char) :
    segsJoin (markerSegs text) = text ∧
    rewriteAscxForDev render cwd text ascxAbs devOrigin
      = replFold (devCb render cwd ascxAbs devOrigin) false (markerSegs text).1
          ++ (markerSegs text).2 ∧
    buildRewriteText render bundle cwd base fAbs text
      = replFold (buildCb render bundle cwd base fAbs) () (markerSegs text).1
          ++ (markerSegs text).2 := by
  refine ⟨markerSegs_recomp text, ?_, ?_⟩
  · unfold rewriteAscxForDev
    cases h : (markerSegs text).1.isEmpty with
    | true =>
      have h1 : (markerSegs text).1 = [] := by simpa using h
      rw [if_pos rfl, h1, markerSegs_empty_tail text h1]
      simp [replFold]
    | false =>
      rw [if_neg (by simp [h])]
      exact jsReplaceSt_segs _ false text
  · unfold buildRewriteText
    cases h : (markerSegs text).1.isEmpty with
    | true =>
      have h1 : (markerSegs text).1 = [] := by simpa using h
      rw [if_pos rfl, h1, markerSegs_empty_tail text h1]
      simp [replFold]
    | false =>
      rw [if_neg (by simp [h])]
      exact jsReplaceSt_segs _ () text

/-- C2: For every input text in which the marker pattern has no match,
`rewriteAscxForDev` returns a string identical to its input, for every
template path, every dev origin (and every renderer). -/
theorem rewriteAscxForDev_id_of_no_marker
    (render : RenderCtx → List Char) (cwd text ascxAbs devOrigin : List Char)
    (h : (markerSegs text).1 = []) :
    rewriteAscxForDev render cwd text ascxAbs devOrigin = text := by
  unfold rewriteAscxForDev
  rw [if_pos (by simp [h])]

/-- Witness for C2 at a concrete marker-free text. -/
theorem rewriteAscxForDev_id_of_no_marker_witness :
    (markerSegs (("<p>hello</p>").toList)).1 = [] ∧
    rewriteAscxForDev (fun _ => []) (("/cwd").toList) (("<p>hello</p>").toList)
      (("/skin/a.ascx").toList) (("http://localhost:5173").toList)
      = (("<p>hello</p>").toList) :=
  ⟨by decide,
   rewriteAscxForDev_id_of_no_marker _ _ _ _ _ (by decide)⟩

/-- C4: In the build rewrite, for every marker occurrence whose resolved
absolute module path matches no entry chunk in the bundle, the
occurrence is replaced by the diagnostic comment
`<!-- vite:missing-entry ` followed by the captured reference text (and
the closing ` -->`); the renderer is not invoked for that occurrence
(the output is the same for every renderer); no error is raised (the
rewrite is a total function); and all other occurrences and files are
still processed and written — `generateBundle` emits exactly one write
per discovered file, whatever the bundle contains. -/
theorem build_missing_entry_placeholder
    (bundle : List BundleItem) (cwd base fAbs outAscxDir ascxRootDir cap : List Char)
    (files : List (List Char × List Char))
    (h : getChunkBySourceEntry cwd bundle (pathResolve cwd cap) = none) :
    (∀ render : RenderCtx → List Char,
       (buildCb render bundle cwd base fAbs () cap).1 = missingEntryComment cap) ∧
    missingEntryComment cap
      = (("<!-- vite:missing-entry ").toList) ++ cap ++ ((" -->").toList) ∧
    (∀ render : RenderCtx → List Char,
       (generateBundleWrites render bundle cwd base outAscxDir ascxRootDir files).length
         = files.length) := by
  refine ⟨?_, rfl, ?_⟩
  · intro render
    simp only [buildCb, h]
  · intro render
    unfold generateBundleWrites
    simp

/-- Witness for C4: the empty bundle resolves no entry. -/
theorem build_missing_entry_placeholder_witness :
    getChunkBySourceEntry (("/cwd").toList) []
        (pathResolve (("/cwd").toList) (("src/app.ts").toList)) = none ∧
    ((∀ render : RenderCtx → List Char,
        (buildCb render [] (("/cwd").toList) (("/base/").toList)
            (("/skin/a.ascx").toList) () (("src/app.ts").toList)).1
          = missingEntryComment (("src/app.ts").toList)) ∧
     missingEntryComment (("src/app.ts").toList)
       = (("<!-- vite:missing-entry ").toList) ++ (("src/app.ts").toList)
           ++ ((" -->").toList) ∧
     (∀ render : RenderCtx → List Char,
        (generateBundleWrites render [] (("/cwd").toList) (("/base/").toList)
            (("dist").toList) (("/cwd").toList)
            [((("/cwd/a.ascx").toList), (("<p>t</p>").toList))]).length
          = [((("/cwd/a.ascx").toList), (("<p>t</p>").toList))].length)) :=
  ⟨rfl, build_missing_entry_placeholder _ _ _ _ _ _ _ _ rfl⟩

/-- Helper for C5: with no marker occurrence anywhere, the collected
Rollup `inputs` record stays empty. -/
theorem collectInputs_of_no_markers (cwd : List Char) :
    ∀ (files : List (List Char × List Char)) (acc : List (List Char × List Char)),
      (∀ fc ∈ files, (markerSegs fc.2).1 = []) →
      files.foldl (fun acc2 fc =>
        (fileCaptures fc.2).foldl (fun acc3 cap =>
          upsert (entryKey cwd (pathResolve cwd cap)) (pathResolve cwd cap) acc3)
          acc2) acc = acc := by
  intro files
  induction files with
  | nil => intro acc _; rfl
  | cons fc rest ih =>
    intro acc h
    have h1 : (markerSegs fc.2).1 = [] := h fc (List.mem_cons_self fc rest)
    have h2 : fileCaptures fc.2 = [] := by simp [fileCaptures, h1]
    simp only [List.foldl_cons, h2, List.foldl_nil]
    exact ih acc (fun x hx => h x (List.mem_cons_of_mem fc hx))

/-- C5: In the build-mode configuration step, if `requireAtLeastOneEntry`
is enabled and no marker occurrence is found across the entire
discovered file set, a fatal error is raised (so bundling never
proceeds); if it is not enabled, configuration always proceeds without
an error, in particular with zero markers. -/
theorem config_zero_entries_policy (cwd : List Char)
    (files : List (List Char × List Char))
    (h : ∀ fc ∈ files, (markerSegs fc.2).1 = []) :
    configBuild true cwd files
      = Except.error (("No @vite:entry markers found in ascx files.").toList) ∧
    (∀ files2 : List (List Char × List Char),
       configBuild false cwd files2 = Except.ok (collectInputs cwd files2)) := by
  constructor
  · have h1 : collectInputs cwd files = [] :=
      collectInputs_of_no_markers cwd files [] h
    unfold configBuild
    rw [h1]
    rfl
  · intro files2
    rfl

/-- Witness for C5 at a concrete marker-free file set. -/
theorem config_zero_entries_policy_witness :
    (∀ fc ∈ [((("/x/a.ascx").toList), (("<p>no marker</p>").toList))],
       (markerSegs fc.2).1 = []) ∧
    (configBuild true (("/cwd").toList)
        [((("/x/a.ascx").toList), (("<p>no marker</p>").toList))]
      = Except.error (("No @vite:entry markers found in ascx files.").toList) ∧
     (∀ files2 : List (List Char × List Char),
        configBuild false (("/cwd").toList) files2
          = Except.ok (collectInputs (("/cwd").toList) files2))) :=
  ⟨by decide, config_zero_entries_policy _ _ (by decide)⟩

/-- C9: In both dev and build rewriting (and in the config scan), the
captured reference is resolved with `path.resolve` against the process
working directory, not against the directory of the template file: the
dev context's `entryAbs` equals `pathResolve cwd cap` whatever the
template path is, the build callback looks its chunk up under
`pathResolve cwd cap` and puts that same path in the context whatever
the template path is, and the config-phase `inputs` record for a text is
the same whichever template file contains it. -/
theorem entry_resolution_uses_cwd_only
    (render : RenderCtx → List Char) (bundle : List BundleItem)
    (cwd base devOrigin cap text t1 t2 : List Char) (inj : Bool) :
    (devRenderCtx cwd t1 devOrigin inj cap).entryAbs = pathResolve cwd cap ∧
    (devRenderCtx cwd t1 devOrigin inj cap).entryAbs
      = (devRenderCtx cwd t2 devOrigin inj cap).entryAbs ∧
    (buildCb render bundle cwd base t1 () cap).1
      = (match getChunkBySourceEntry cwd bundle (pathResolve cwd cap) with
         | none => missingEntryComment cap
         | some c => render (buildRenderCtx t1 cap (pathResolve cwd cap)
             (toPublicUrl base c.fileName) (c.importedCss.map (toPublicUrl base)) c)) ∧
    collectInputs cwd [(t1, text)] = collectInputs cwd [(t2, text)] := by
  refine ⟨rfl, rfl, ?_, rfl⟩
  cases h : getChunkBySourceEntry cwd bundle (pathResolve cwd cap) <;>
    simp [buildCb, h]

/-- Helpers for C8. -/
theorem mirrorsThenReloads_nil : mirrorsThenReloads [] := Or.inl rfl

theorem mirrorsThenReloads_writes (l : List FsEffect)
    (hl : ∀ e ∈ l, e ≠ FsEffect.reload) :
    mirrorsThenReloads (l ++ [FsEffect.reload]) := Or.inr ⟨l, hl, rfl⟩

/-- C8: For every watch event handled by the file-watch coordinator
(change to a public-directory file, change to a tracked template file,
add, unlink), every mirrored write performed by the (synchronous)
handler precedes the full-reload signal in the handler's effect trace:
each trace is either empty or a list of writes followed by exactly one
final reload, so the reload is never emitted before the `writeMirrored`
calls have finished. -/
theorem watch_mirrors_before_reload
    (render : RenderCtx → List Char) (readFile : List Char → List Char)
    (cwd publicDir devOutDir devOrigin devOutAscxDir file : List Char)
    (allAscxFiles globResult : List (List Char)) :
    mirrorsThenReloads
      (onChangeEffects render readFile cwd publicDir devOutDir devOrigin
        allAscxFiles file) ∧
    mirrorsThenReloads
      (onAddEffects render readFile cwd devOutAscxDir devOrigin globResult file) ∧
    mirrorsThenReloads
      (onUnlinkEffects render readFile cwd devOutAscxDir devOrigin globResult file) := by
  have hw : ∀ o s c : List Char, (FsEffect.write o s c : FsEffect) ≠ FsEffect.reload :=
    fun o s c h => FsEffect.noConfusion h
  have hall : ∀ (rd : List Char → List Char) (dOut dOrig : List Char)
      (l : List (List Char)),
      ∀ e ∈ writeAllDevAscxEffects render rd cwd dOut dOrig l,
        e ≠ FsEffect.reload := by
    intro rd dOut dOrig l e he
    unfold writeAllDevAscxEffects at he
    obtain ⟨f, _, rfl⟩ := List.mem_map.mp he
    exact hw _ _ _
  refine ⟨?_, ?_, ?_⟩
  · simp only [onChangeEffects]
    split_ifs with h1 h2 h3
    · exact mirrorsThenReloads_writes [FsEffect.write _ _ _] (by
        intro e he
        rw [List.mem_singleton] at he
        rw [he]
        exact hw _ _ _)
    · exact mirrorsThenReloads_nil
    · exact mirrorsThenReloads_writes [FsEffect.write _ _ _] (by
        intro e he
        rw [List.mem_singleton] at he
        rw [he]
        exact hw _ _ _)
    · exact mirrorsThenReloads_nil
  · unfold onAddEffects
    split_ifs with h1
    · exact mirrorsThenReloads_writes _ (hall readFile _ _ _)
    · exact mirrorsThenReloads_nil
  · unfold onUnlinkEffects
    split_ifs with h1
    · exact mirrorsThenReloads_writes _ (hall readFile _ _ _)
    · exact mirrorsThenReloads_nil

/-- Helper for C3: the dev replace pass renders exactly the contexts of
`devCtxList`, in occurrence order, threading the `injectedClient`
flag. -/
theorem replFold_devCb_renderSegs (render : RenderCtx → List Char)
    (cwd ascxAbs devOrigin : List Char) :
    ∀ (segs : List Seg) (s : Bool),
      replFold (devCb render cwd ascxAbs devOrigin) s segs
        = renderSegs render segs
            (devCtxList cwd ascxAbs devOrigin s (segs.map (fun sg => sg.2.2))) := by
  intro segs
  induction segs with
  | nil => intro s; rfl
  | cons sg rest ih =>
    intro s
    simp only [replFold, devCb, List.map_cons, devCtxList, renderSegs]
    rw [ih true]

/-- Helper for C3: once `injectedClient` is set, every later context
carries no dev-client URL. -/
theorem devCtxList_true_none (cwd ascxAbs devOrigin : List Char) :
    ∀ caps, ∀ ctx ∈ devCtxList cwd ascxAbs devOrigin true caps,
      ctx.devClientUrl = none := by
  intro caps
  induction caps with
  | nil => intro ctx h; cases h
  | cons c rest ih =>
    intro ctx h
    rw [devCtxList] at h
    rcases List.mem_cons.mp h with h1 | h2
    · rw [h1]; rfl
    · exact ih ctx h2

/-- C3: For every input text with two or more marker occurrences
processed by `rewriteAscxForDev`, the render context passed for the
first occurrence (in text order) has
`devClientUrl = devOrigin ++ "/@vite/client"`, and the context for every
subsequent occurrence in the same call has `devClientUrl` undefined; the
last conjunct ties the context list to the actual output of
`rewriteAscxForDev`. -/
theorem dev_client_url_only_first (render : RenderCtx → List Char)
    (cwd ascxAbs devOrigin text : List Char)
    (h : 2 ≤ (markerSegs text).1.length) :
    ∃ c0 crest,
      devCtxList cwd ascxAbs devOrigin false
          ((markerSegs text).1.map (fun sg => sg.2.2)) = c0 :: crest ∧
      c0.devClientUrl = some (devOrigin ++ (("/@vite/client").toList)) ∧
      crest ≠ [] ∧
      (∀ ctx ∈ crest, ctx.devClientUrl = none) ∧
      rewriteAscxForDev render cwd text ascxAbs devOrigin
        = renderSegs render (markerSegs text).1
            (devCtxList cwd ascxAbs devOrigin false
              ((markerSegs text).1.map (fun sg => sg.2.2)))
          ++ (markerSegs text).2 := by
  cases hs : (markerSegs text).1 with
  | nil => rw [hs] at h; simp at h
  | cons sg1 rest1 =>
    cases hr : rest1 with
    | nil => subst hr; rw [hs] at h; simp at h
    | cons sg2 rest2 =>
      subst hr
      refine ⟨devRenderCtx cwd ascxAbs devOrigin false sg1.2.2,
              devCtxList cwd ascxAbs devOrigin true
                ((sg2 :: rest2).map (fun sg : Seg => sg.2.2)), rfl, rfl, ?_, ?_, ?_⟩
      · simp [devCtxList]
      · exact devCtxList_true_none cwd ascxAbs devOrigin _
      · unfold rewriteAscxForDev
        rw [if_neg (by simp [hs])]
        rw [jsReplaceSt_segs, replFold_devCb_renderSegs, hs]

/-- Witness for C3 at a concrete two-marker template. -/
theorem dev_client_url_only_first_witness :
    2 ≤ (markerSegs
          (("<!-- @vite:entry a.js -->X<!-- @vite:entry b.js -->").toList)).1.length ∧
    (∃ c0 crest,
      devCtxList (("/cwd").toList) (("/skin/a.ascx").toList) (("http://h:1").toList)
          false
          ((markerSegs
            (("<!-- @vite:entry a.js -->X<!-- @vite:entry b.js -->").toList)).1.map
              (fun sg => sg.2.2)) = c0 :: crest ∧
      c0.devClientUrl = some ((("http://h:1").toList) ++ (("/@vite/client").toList)) ∧
      crest ≠ [] ∧
      (∀ ctx ∈ crest, ctx.devClientUrl = none) ∧
      rewriteAscxForDev (fun ctx => ctx.jsUrl) (("/cwd").toList)
          (("<!-- @vite:entry a.js -->X<!-- @vite:entry b.js -->").toList)
          (("/skin/a.ascx").toList) (("http://h:1").toList)
        = renderSegs (fun ctx => ctx.jsUrl)
            (markerSegs
              (("<!-- @vite:entry a.js -->X<!-- @vite:entry b.js -->").toList)).1
            (devCtxList (("/cwd").toList) (("/skin/a.ascx").toList)
              (("http://h:1").toList) false
              ((markerSegs
                (("<!-- @vite:entry a.js -->X<!-- @vite:entry b.js -->").toList)).1.map
                  (fun sg => sg.2.2)))
          ++ (markerSegs
              (("<!-- @vite:entry a.js -->X<!-- @vite:entry b.js -->").toList)).2) :=
  ⟨by decide,
   dev_client_url_only_first (fun ctx => ctx.jsUrl) _ _ _ _ (by decide)⟩

/-- C6 counterexample: with a configured base ending in two separators,
`toPublicUrl` keeps both, so the output has two separators between the
base and the artifact path — the claim fails as universally stated
(likewise for an artifact name beginning with two separators, since only
a single leading separator is stripped). -/
theorem toPublicUrl_not_one_separator :
    toPublicUrl (("b//").toList) (("x").toList)
      ≠ oneSepJoin (("b//").toList) (("x").toList) := by decide

/-- Helper for C6: under the no-double-leading-slash assumption,
stripping one leading slash strips them all. -/
theorem stripLeadSlash_eq_dropWhile (p : List Char)
    (hp : isPfx ('/' :: '/' :: []) p = false) :
    stripLeadSlash p = p.dropWhile (fun c => c = '/') := by
  cases p with
  | nil => rfl
  | cons c rest =>
    by_cases hc : c = '/'
    · subst hc
      cases rest with
      | nil => simp [stripLeadSlash, List.dropWhile]
      | cons d rest2 =>
        have hd : ¬d = '/' := by
          intro hd
          rw [hd] at hp
          simp [isPfx] at hp
        simp [stripLeadSlash, List.dropWhile, hd]
    · simp [stripLeadSlash, hc, List.dropWhile]

/-- C6 amended: for every configured public base that does not already
end in two (or more) separators and every artifact file name that does
not begin with two (or more) separators, the public URL built by
`toPublicUrl` contains exactly one separator between base and artifact
path — regardless of whether the base ends with one separator or none,
and whether the artifact name begins with one separator or none. -/
theorem toPublicUrl_one_separator (base p : List Char)
    (hb : isSfx ('/' :: '/' :: []) base = false)
    (hp : isPfx ('/' :: '/' :: []) p = false) :
    toPublicUrl base p = oneSepJoin base p := by
  have hstrip := stripLeadSlash_eq_dropWhile p hp
  have hb2 : isPfx ('/' :: '/' :: []) base.reverse = false := by
    simpa [isSfx] using hb
  unfold toPublicUrl oneSepJoin
  cases hrb : base.reverse with
  | nil =>
    have hbase : base = [] := by
      have h2 := congrArg List.reverse hrb
      simpa using h2
    subst hbase
    simp [hstrip]
  | cons c rb2 =>
    have hbase : base = rb2.reverse ++ (c :: []) := by
      have h2 := congrArg List.reverse hrb
      simpa using h2
    rw [hrb] at hb2
    by_cases hc : c = '/'
    · subst hc
      have hb3 : isPfx ('/' :: []) rb2 = false := by
        simpa [isPfx] using hb2
      cases rb2 with
      | nil =>
        rw [hbase]
        simp [List.dropWhile, hstrip]
      | cons d rb3 =>
        have hd : ¬d = '/' := by
          intro hd
          rw [hd] at hb3
          simp [isPfx] at hb3
        rw [hbase]
        simp [List.dropWhile, hd, hstrip]
    · rw [hbase]
      simp [List.dropWhile, hc, hstrip]

/-- Witness for the amended C6. -/
theorem toPublicUrl_one_separator_witness :
    isSfx ('/' :: '/' :: []) (("/Portals/Skins/").toList) = false ∧
    isPfx ('/' :: '/' :: []) (("assets/home.js").toList) = false ∧
    toPublicUrl (("/Portals/Skins/").toList) (("assets/home.js").toList)
      = oneSepJoin (("/Portals/Skins/").toList) (("assets/home.js").toList) :=
  ⟨by decide, by decide, toPublicUrl_one_separator _ _ (by decide) (by decide)⟩

/-! ## Lemmas about `norm` (for C10) -/

theorem char_le_iff (a b : Char) : a ≤ b ↔ a.toNat ≤ b.toNat := Iff.rfl

theorem jsToLower_idem (c : Char) : jsToLower (jsToLower c) = jsToLower c := by
  unfold jsToLower
  split_ifs with h1 h2
  · exfalso
    have h3 : 65 ≤ c.toNat := (char_le_iff _ _).mp h1.1
    have h4 : c.toNat ≤ 90 := (char_le_iff _ _).mp h1.2
    have hv : (c.toNat + 32).isValidChar := Or.inl (by omega)
    have htn : (Char.ofNat (c.toNat + 32)).toNat = c.toNat + 32 := by
      rw [Char.ofNat, dif_pos hv]; rfl
    have h5 := (char_le_iff _ _).mp h2.2
    rw [htn] at h5
    have h6 : ('Z').toNat = 90 := by decide
    omega
  · rfl
  · rfl

/-- Lower-casing maps no character to a non-letter (such as `/` or `\`)
or away from one. -/
theorem jsToLower_eq_iff (c d : Char)
    (hd : d.toNat < 65 ∨ (90 < d.toNat ∧ d.toNat < 97)) :
    jsToLower c = d ↔ c = d := by
  unfold jsToLower
  split_ifs with h1
  · have h3 : 65 ≤ c.toNat := (char_le_iff _ _).mp h1.1
    have h4 : c.toNat ≤ 90 := (char_le_iff _ _).mp h1.2
    have hv : (c.toNat + 32).isValidChar := Or.inl (by omega)
    have htn : (Char.ofNat (c.toNat + 32)).toNat = c.toNat + 32 := by
      rw [Char.ofNat, dif_pos hv]; rfl
    constructor
    · intro he
      exfalso
      have h5 := congrArg Char.toNat he
      rw [htn] at h5
      omega
    · intro he
      exfalso
      have h5 := congrArg Char.toNat he
      omega
  · exact Iff.rfl

theorem dropWhile_head_false {α : Type} (p : α → Bool) :
    ∀ (l : List α) (a : α) (t : List α), l.dropWhile p = a :: t → p a = false := by
  intro l
  induction l with
  | nil => intro a t h; cases h
  | cons x xs ih =>
    intro a t h
    by_cases hx : p x
    · rw [List.dropWhile_cons_of_pos hx] at h
      exact ih a t h
    · rw [List.dropWhile_cons_of_neg hx] at h
      injection h with h1 h2
      rw [← h1]
      simpa using hx

/-- The backslash-to-slash map is a no-op on `norm`'s output. -/
theorem bsMap_norm (p : List Char) :
    (norm p).map (fun c => if c = '\\' then '/' else c) = norm p := by
  unfold norm
  rw [List.map_map]
  apply List.map_congr_left
  intro d hd
  have hd2 : d ∈ p.map (fun c => if c = '\\' then '/' else c) := by
    have hsub := List.Sublist.subset
      (List.dropWhile_sublist (l :=
        (p.map (fun c => if c = '\\' then '/' else c)).reverse)
        (p := fun c => c = '/'))
    have hd3 := (List.mem_reverse).mp hd
    have hd4 := hsub hd3
    exact (List.mem_reverse).mp hd4
  have hdns : d ≠ '\\' := by
    obtain ⟨e, _, rfl⟩ := List.mem_map.mp hd2
    by_cases he : e = '\\' <;> simp [he]
  have hlns : jsToLower d ≠ '\\' := by
    intro hc
    exact hdns ((jsToLower_eq_iff d '\\' (Or.inr (by decide))).mp hc)
  simp [Function.comp, hlns]

/-- Stripping trailing separators is a no-op on `norm`'s output. -/
theorem stripTrail_norm (p : List Char) :
    ((norm p).reverse.dropWhile (fun c => c = '/')).reverse = norm p := by
  unfold norm
  rw [← List.map_reverse, List.reverse_reverse]
  cases hz : ((p.map (fun c => if c = '\\' then '/' else c)).reverse.dropWhile
      (fun c => c = '/')) with
  | nil => simp
  | cons a t =>
    have ha := dropWhile_head_false _ _ _ _ hz
    have ha2 : a ≠ '/' := by simpa using ha
    have hla : jsToLower a ≠ '/' := by
      intro hc
      exact ha2 ((jsToLower_eq_iff a '/' (Or.inl (by decide))).mp hc)
    rw [List.map_cons, List.dropWhile_cons_of_neg (by simpa using hla)]
    rw [← List.map_cons, ← hz, List.map_reverse]

/-- `norm` is idempotent: every path in the tracked set, which is built
by mapping `norm` over discovery results, is a fixed point of `norm`. -/
theorem norm_idem (p : List Char) : norm (norm p) = norm p := by
  conv_lhs => rw [norm]
  rw [bsMap_norm, stripTrail_norm]
  conv_lhs => rw [norm]
  rw [List.map_map]
  apply List.map_congr_left
  intro d _
  exact jsToLower_idem d

/-- C10: Every path stored in the tracked file set `allAscxFiles` is a
fixed point of `norm` — `norm` is idempotent and the set is (re)built by
mapping `norm` over glob results at discovery and in the add/unlink
handlers — and this is what makes the `change` handler's membership test
correct: the handler looks up `norm`-normalized keys (`absPath` is
`norm` after resolution), and on a `norm`-fixed list the lookup of
`norm q` succeeds exactly when some tracked path has the same
normalization as `q`. -/
theorem allAscxFiles_norm_invariant (globResult tracked : List (List Char))
    (q : List Char)
    (h : ∀ t ∈ tracked, norm t = t) :
    (∀ x : List Char, norm (norm x) = norm x) ∧
    (∀ t ∈ globResult.map norm, norm t = t) ∧
    (tracked.contains (norm q) = true ↔ ∃ t ∈ tracked, norm t = norm q) ∧
    (∀ cwd f : List Char,
       absPath cwd f = norm (if isAbsL f then f else pathResolve cwd f)) := by
  refine ⟨norm_idem, ?_, ?_, fun cwd f => rfl⟩
  · intro t ht
    obtain ⟨x, _, rfl⟩ := List.mem_map.mp ht
    exact norm_idem x
  · constructor
    · intro hc
      exact ⟨norm q, List.elem_iff.mp hc, norm_idem q⟩
    · rintro ⟨t, ht, hteq⟩
      have h2 : t = norm q := by rw [← h t ht, hteq]
      rw [← h2]
      exact List.elem_iff.mpr ht

/-- Witness for C10 on a concrete tracked set of `norm`-fixed paths. -/
theorem allAscxFiles_norm_invariant_witness :
    (∀ t ∈ [(("/skins/my/a.ascx").toList)], norm t = t) ∧
    ((∀ x : List Char, norm (norm x) = norm x) ∧
     (∀ t ∈ [(("C:\\Skins\\B.ascx").toList)].map norm, norm t = t) ∧
     ([(("/skins/my/a.ascx").toList)].contains
         (norm (("/Skins/My/A.ascx").toList)) = true ↔
       ∃ t ∈ [(("/skins/my/a.ascx").toList)],
         norm t = norm (("/Skins/My/A.ascx").toList)) ∧
     (∀ cwd f : List Char,
        absPath cwd f = norm (if isAbsL f then f else pathResolve cwd f))) :=
  ⟨by decide, allAscxFiles_norm_invariant _ _ _ (by decide)⟩

/-! ## Path lemmas (for C7) -/

theorem splitSegAux_no_slash :
    ∀ (p cur : List Char), (∀ c ∈ cur, c ≠ '/') →
      ∀ s ∈ splitSegAux cur p, ∀ c ∈ s, c ≠ '/' := by
  intro p
  induction p with
  | nil =>
    intro cur hcur s hs c hc
    simp only [splitSegAux, List.mem_singleton] at hs
    subst hs
    exact hcur c ((List.mem_reverse).mp hc)
  | cons x xs ih =>
    intro cur hcur s hs c hc
    by_cases hx : x = '/'
    · rw [splitSegAux, if_pos hx] at hs
      rcases List.mem_cons.mp hs with h1 | h2
      · subst h1
        exact hcur c ((List.mem_reverse).mp hc)
      · exact ih [] (by intro a ha; cases ha) s h2 c hc
    · rw [splitSegAux, if_neg hx] at hs
      refine ih (x :: cur) ?_ s hs c hc
      intro a ha
      rcases List.mem_cons.mp ha with h1 | h2
      · subst h1; exact hx
      · exact hcur a h2

theorem splitSeg_no_slash (p : List Char) :
    ∀ s ∈ splitSeg p, ∀ c ∈ s, c ≠ '/' :=
  splitSegAux_no_slash p [] (by intro a ha; cases ha)

theorem normStack_subset :
    ∀ (l acc : List (List Char)), ∀ s ∈ normStack acc l, s ∈ acc ∨ s ∈ l := by
  intro l
  induction l with
  | nil =>
    intro acc s hs
    rw [normStack] at hs
    exact Or.inl ((List.mem_reverse).mp hs)
  | cons x xs ih =>
    intro acc s hs
    rw [normStack] at hs
    split_ifs at hs with h1 h2
    · rcases ih acc s hs with h | h
      · exact Or.inl h
      · exact Or.inr (List.mem_cons_of_mem x h)
    · rcases ih acc.tail s hs with h | h
      · exact Or.inl (List.mem_of_mem_tail h)
      · exact Or.inr (List.mem_cons_of_mem x h)
    · rcases ih (x :: acc) s hs with h | h
      · rcases List.mem_cons.mp h with h3 | h4
        · exact Or.inr (h3 ▸ List.mem_cons_self x xs)
        · exact Or.inl h4
      · exact Or.inr (List.mem_cons_of_mem x h)

theorem normStack_not_junk :
    ∀ (l acc : List (List Char)),
      (∀ s ∈ acc, s ≠ [] ∧ s ≠ ('.' :: []) ∧ s ≠ ('.' :: '.' :: [])) →
      ∀ s ∈ normStack acc l,
        s ≠ [] ∧ s ≠ ('.' :: []) ∧ s ≠ ('.' :: '.' :: []) := by
  intro l
  induction l with
  | nil =>
    intro acc hacc s hs
    rw [normStack] at hs
    exact hacc s ((List.mem_reverse).mp hs)
  | cons x xs ih =>
    intro acc hacc s hs
    rw [normStack] at hs
    split_ifs at hs with h1 h2
    · exact ih acc hacc s hs
    · refine ih acc.tail ?_ s hs
      intro a ha
      exact hacc a (List.mem_of_mem_tail ha)
    · refine ih (x :: acc) ?_ s hs
      intro a ha
      rcases List.mem_cons.mp ha with h3 | h4
      · subst h3
        have h1a : a ≠ [] := by intro he; exact h1 (by simp [he])
        have h1b : a ≠ ('.' :: []) := by intro he; exact h1 (by simp [he])
        have h2a : a ≠ ('.' :: '.' :: []) := by intro he; exact h2 (by simp [he])
        exact ⟨h1a, h1b, h2a⟩
      · exact hacc a h4

/-- Every segment of a resolved path is clean: nonempty, not a dot
segment, and separator-free. -/
theorem segsOfAbs_clean (cwd p : List Char) :
    ∀ s ∈ segsOfAbs cwd p,
      (s ≠ [] ∧ s ≠ ('.' :: []) ∧ s ≠ ('.' :: '.' :: [])) ∧
        (∀ c ∈ s, c ≠ '/') := by
  intro s hs
  unfold segsOfAbs at hs
  constructor
  · exact normStack_not_junk _ [] (by intro a ha; cases ha) s hs
  · rcases normStack_subset _ [] s hs with h | h
    · cases h
    · exact splitSeg_no_slash _ s h

theorem splitSegAux_append_slash :
    ∀ (a cur b : List Char),
      splitSegAux cur (a ++ '/' :: b) = splitSegAux cur a ++ splitSeg b := by
  intro a
  induction a with
  | nil =>
    intro cur b
    simp only [List.nil_append, splitSegAux, if_pos rfl]
    rfl
  | cons x xs ih =>
    intro cur b
    by_cases hx : x = '/'
    · simp only [List.cons_append, splitSegAux, if_pos hx, List.append_eq]
      rw [ih]
    · simp only [List.cons_append, splitSegAux, if_neg hx, List.append_eq]
      rw [ih (x :: cur) b]

theorem splitSeg_append_slash (a b : List Char) :
    splitSeg (a ++ '/' :: b) = splitSeg a ++ splitSeg b :=
  splitSegAux_append_slash a [] b

theorem splitSegAux_single :
    ∀ (s cur : List Char), (∀ c ∈ s, c ≠ '/') →
      splitSegAux cur s = [cur.reverse ++ s] := by
  intro s
  induction s with
  | nil => intro cur _; simp [splitSegAux]
  | cons x xs ih =>
    intro cur hns
    have hx : x ≠ '/' := hns x (List.mem_cons_self x xs)
    rw [splitSegAux, if_neg hx, ih (x :: cur)
      (fun c hc => hns c (List.mem_cons_of_mem x hc))]
    simp

theorem splitSeg_single (s : List Char) (hns : ∀ c ∈ s, c ≠ '/') :
    splitSeg s = [s] := by
  have h := splitSegAux_single s [] hns
  simpa [splitSeg] using h

theorem splitSeg_joinSeg :
    ∀ (X : List (List Char)), X ≠ [] → (∀ s ∈ X, ∀ c ∈ s, c ≠ '/') →
      splitSeg (joinSeg X) = X := by
  intro X
  induction X with
  | nil => intro h _; exact absurd rfl h
  | cons x xs ih =>
    intro _ hns
    cases xs with
    | nil =>
      exact splitSeg_single x (hns x (List.mem_cons_self x []))
    | cons y ys =>
      show splitSeg (x ++ '/' :: joinSeg (y :: ys)) = x :: y :: ys
      rw [splitSeg_append_slash,
        splitSeg_single x (hns x (List.mem_cons_self x (y :: ys))),
        ih (by simp) (fun s hsm => hns s (List.mem_cons_of_mem x hsm))]
      rfl

theorem joinSeg_append :
    ∀ (A B : List (List Char)), A ≠ [] → B ≠ [] →
      joinSeg (A ++ B) = joinSeg A ++ '/' :: joinSeg B := by
  intro A
  induction A with
  | nil => intro B h _; exact absurd rfl h
  | cons a A2 ih =>
    intro B _ hB
    cases A2 with
    | nil =>
      cases B with
      | nil => exact absurd rfl hB
      | cons b B2 => rfl
    | cons a2 A3 =>
      show joinSeg (a :: ((a2 :: A3) ++ B)) = (a ++ '/' :: joinSeg (a2 :: A3)) ++ '/' :: joinSeg B
      have h2 : (a2 :: A3) ++ B ≠ [] := by simp
      calc joinSeg (a :: ((a2 :: A3) ++ B))
          = a ++ '/' :: joinSeg ((a2 :: A3) ++ B) := by
            cases hx : (a2 :: A3) ++ B with
            | nil => exact absurd hx h2
            | cons z zs => rfl
        _ = a ++ '/' :: (joinSeg (a2 :: A3) ++ '/' :: joinSeg B) := by
            rw [ih B (by simp) hB]
        _ = (a ++ '/' :: joinSeg (a2 :: A3)) ++ '/' :: joinSeg B := by
            simp

theorem normStack_append :
    ∀ (l1 : List (List Char)) (acc l2 : List (List Char)),
      normStack acc (l1 ++ l2) = normStack ((normStack acc l1).reverse) l2 := by
  intro l1
  induction l1 with
  | nil =>
    intro acc l2
    rw [normStack, List.reverse_reverse]
    rfl
  | cons x xs ih =>
    intro acc l2
    rw [List.cons_append, normStack, normStack]
    split_ifs with h1 h2
    · exact ih acc l2
    · exact ih acc.tail l2
    · exact ih (x :: acc) l2

theorem normStack_all_clean :
    ∀ (l2 acc : List (List Char)),
      (∀ s ∈ l2, s ≠ [] ∧ s ≠ ('.' :: []) ∧ s ≠ ('.' :: '.' :: [])) →
      normStack acc l2 = acc.reverse ++ l2 := by
  intro l2
  induction l2 with
  | nil => intro acc _; simp [normStack]
  | cons x xs ih =>
    intro acc hcl
    have hx := hcl x (List.mem_cons_self x xs)
    rw [normStack, if_neg (by simp [hx.1, hx.2.1]), if_neg hx.2.2]
    rw [ih (x :: acc) (fun s hsm => hcl s (List.mem_cons_of_mem x hsm))]
    simp

theorem dropCommon_right_mem :
    ∀ (a b : List (List Char)), ∀ x ∈ (dropCommon a b).2, x ∈ b := by
  intro a
  induction a with
  | nil => intro b x hx; exact hx
  | cons s a2 ih =>
    intro b x hx
    cases b with
    | nil =>
      rw [show dropCommon (s :: a2) ([] : List (List Char)) = (s :: a2, []) from rfl] at hx
      cases hx
    | cons t b2 =>
      rw [dropCommon] at hx
      split_ifs at hx with h1
      · exact List.mem_cons_of_mem t (ih b2 x hx)
      · exact hx

theorem joinSeg_dotdot_head (rest : List (List Char)) :
    isPfx ('.' :: '.' :: []) (joinSeg (('.' :: '.' :: []) :: rest)) = true := by
  cases rest with
  | nil => rfl
  | cons r rs => rfl

theorem takeWhile_append_stop :
    ∀ (u v : List Char), (∀ c ∈ u, c ≠ '/') →
      ((u ++ '/' :: v).takeWhile (fun c => c != '/')) = u := by
  intro u
  induction u with
  | nil => intro v _; simp [List.takeWhile]
  | cons x xs ih =>
    intro v hns
    have hx : x ≠ '/' := hns x (List.mem_cons_self x xs)
    rw [List.cons_append, List.takeWhile_cons_of_pos (by simpa using hx)]
    rw [ih v (fun c hc => hns c (List.mem_cons_of_mem x hc))]

theorem baseName_append (xs t : List Char) (ht : t ≠ [])
    (hns : ∀ c ∈ t, c ≠ '/') : baseName (xs ++ '/' :: t) = t := by
  simp only [baseName, List.reverse_reverse]
  cases hrt : t.reverse with
  | nil => exact absurd (by simpa using congrArg List.reverse hrt) ht
  | cons h tr =>
    have hmemt : ∀ c ∈ h :: tr, c ∈ t := by
      intro c hc
      rw [← List.mem_reverse, hrt]
      exact hc
    have hh : h ≠ '/' := hns h (hmemt h (List.mem_cons_self h tr))
    have hrev : (xs ++ '/' :: t).reverse = (h :: tr) ++ '/' :: xs.reverse := by
      rw [List.reverse_append, List.reverse_cons, hrt]
      simp
    rw [hrev, List.cons_append,
      List.dropWhile_cons_of_neg (by simpa using hh), ← List.cons_append,
      takeWhile_append_stop (h :: tr) xs.reverse (fun c hc => hns c (hmemt c hc)),
      ← hrt, List.reverse_reverse]

theorem joinSeg_reverse_head :
    ∀ (A : List (List Char)), A ≠ [] →
      (∀ s ∈ A, s ≠ [] ∧ ∀ c ∈ s, c ≠ '/') →
      ∃ h tl, (joinSeg A).reverse = h :: tl ∧ h ≠ '/' := by
  intro A
  induction A with
  | nil => intro h _; exact absurd rfl h
  | cons s A2 ih =>
    intro _ hcl
    cases A2 with
    | nil =>
      have hs := hcl s (List.mem_cons_self s [])
      cases hrs : s.reverse with
      | nil => exact absurd (by simpa using congrArg List.reverse hrs) hs.1
      | cons h tl =>
        refine ⟨h, tl, by simpa [joinSeg] using hrs, ?_⟩
        refine hs.2 h ?_
        rw [← List.mem_reverse, hrs]
        exact List.mem_cons_self h tl
    | cons y ys =>
      obtain ⟨h, tl, heq, hh⟩ := ih (by simp)
        (fun x hx => hcl x (List.mem_cons_of_mem s hx))
      refine ⟨h, tl ++ '/' :: s.reverse, ?_, hh⟩
      show (s ++ '/' :: joinSeg (y :: ys)).reverse = h :: (tl ++ '/' :: s.reverse)
      rw [List.reverse_append, List.reverse_cons, heq]
      simp

theorem isPfx_append_cancel {α : Type} [DecidableEq α] :
    ∀ (x y z : List α), isPfx (x ++ y) (x ++ z) = isPfx y z := by
  intro x
  induction x with
  | nil => intro y z; rfl
  | cons a x2 ih => intro y z; simp [isPfx, ih]

theorem normStack_nil_seg (acc rest : List (List Char)) :
    normStack acc (([] : List Char) :: rest) = normStack acc rest := by
  rw [normStack, if_pos (by simp)]

/-- `normStack` of a rejoined clean segment list recovers the list. -/
theorem normStack_split_join (X : List (List Char))
    (hX : ∀ s ∈ X,
      (s ≠ [] ∧ s ≠ ('.' :: []) ∧ s ≠ ('.' :: '.' :: [])) ∧ ∀ c ∈ s, c ≠ '/') :
    normStack [] (splitSeg (joinSeg X)) = X := by
  cases X with
  | nil => rfl
  | cons x xs =>
    rw [splitSeg_joinSeg (x :: xs) (by simp) (fun s h => (hX s h).2)]
    simpa using normStack_all_clean (x :: xs) [] (fun s h => (hX s h).1)

theorem normStack_split_join_acc (T : List (List Char)) (acc : List (List Char))
    (hT : ∀ s ∈ T,
      (s ≠ [] ∧ s ≠ ('.' :: []) ∧ s ≠ ('.' :: '.' :: [])) ∧ ∀ c ∈ s, c ≠ '/') :
    normStack acc (splitSeg (joinSeg T)) = acc.reverse ++ T := by
  cases T with
  | nil =>
    show normStack acc (splitSeg []) = acc.reverse ++ []
    rw [show splitSeg ([] : List Char) = [([] : List Char)] from rfl,
      normStack_nil_seg, normStack]
    simp
  | cons t ts =>
    rw [splitSeg_joinSeg (t :: ts) (by simp) (fun s h => (hT s h).2)]
    exact normStack_all_clean (t :: ts) acc (fun s h => (hT s h).1)

/-- Joining a clean relative segment list under a clean absolute
directory lands inside that directory. -/
theorem pathJoin_clean_inside (outSegs T : List (List Char))
    (hout : ∀ s ∈ outSegs,
      (s ≠ [] ∧ s ≠ ('.' :: []) ∧ s ≠ ('.' :: '.' :: [])) ∧ ∀ c ∈ s, c ≠ '/')
    (hT : ∀ s ∈ T,
      (s ≠ [] ∧ s ≠ ('.' :: []) ∧ s ≠ ('.' :: '.' :: [])) ∧ ∀ c ∈ s, c ≠ '/') :
    insideDir ('/' :: joinSeg outSegs)
      (pathJoin ('/' :: joinSeg outSegs) (joinSeg T)) = true := by
  have hjoin : pathJoin ('/' :: joinSeg outSegs) (joinSeg T)
      = '/' :: joinSeg (outSegs ++ T) := by
    rw [pathJoin]
    rw [if_pos (by simp [isAbsL])]
    have h1 : ('/' :: joinSeg outSegs) ++ '/' :: joinSeg T
        = '/' :: (joinSeg outSegs ++ '/' :: joinSeg T) := rfl
    rw [h1, show splitSeg ('/' :: (joinSeg outSegs ++ '/' :: joinSeg T))
        = ([] : List Char) :: splitSeg (joinSeg outSegs ++ '/' :: joinSeg T) from by
      simp [splitSeg, splitSegAux]]
    rw [normStack_nil_seg, splitSeg_append_slash, normStack_append,
      normStack_split_join outSegs hout, normStack_split_join_acc T _ hT]
    rw [List.reverse_reverse]
  rw [hjoin]
  cases T with
  | nil =>
    rw [List.append_nil]
    simp [insideDir]
  | cons t ts =>
    cases outSegs with
    | nil =>
      simp only [insideDir, Bool.or_eq_true]
      refine Or.inr ?_
      show isPfx ((('/' :: joinSeg ([] : List (List Char))).reverse.dropWhile
          (fun c => c = '/')).reverse ++ ('/' :: [])) _ = true
      simp [joinSeg, isPfx]
    | cons o os =>
      have hjr := joinSeg_reverse_head (o :: os) (by simp)
        (fun s h => ⟨(hout s h).1.1, (hout s h).2⟩)
      obtain ⟨hd, tl, heq, hhd⟩ := hjr
      simp only [insideDir, Bool.or_eq_true]
      refine Or.inr ?_
      have hda : ('/' :: joinSeg (o :: os)).reverse
          = hd :: (tl ++ '/' :: []) := by
        rw [List.reverse_cons, heq]
        simp
      rw [hda, List.dropWhile_cons_of_neg (by simpa using hhd), ← hda,
        List.reverse_reverse]
      rw [joinSeg_append (o :: os) (t :: ts) (by simp) (by simp)]
      have hsplit : ('/' :: (joinSeg (o :: os) ++ '/' :: joinSeg (t :: ts)))
          = ('/' :: joinSeg (o :: os)) ++ '/' :: joinSeg (t :: ts) := rfl
      rw [hsplit, show ('/' :: joinSeg (o :: os)) ++ ('/' :: [])
          = ('/' :: joinSeg (o :: os)) ++ ('/' :: []) from rfl]
      rw [isPfx_append_cancel]
      simp [isPfx]

/-- C7: `writeMirrored` computes the source path relative to the
configured root; whenever that relative path starts with `..` it uses
only the file's base name instead, and for every resolved (absolute,
normalized) output directory and source file path the computed output
path lies inside the output directory.  All path computations are total
functions, so no input makes the operation fail. -/
theorem writeMirrored_stays_inside (cwd outDir root file : List Char)
    (hout : isResolved outDir = true) (hfile : isResolved file = true) :
    (isPfx ('.' :: '.' :: []) (pathRelative cwd root file) = true →
       mirrorOutPath cwd outDir root file = pathJoin outDir (baseName file)) ∧
    insideDir outDir (mirrorOutPath cwd outDir root file) = true := by
  have houtEq : outDir = '/' :: joinSeg (segsOfAbs ('/' :: []) outDir) := by
    have h2 : outDir = pathResolve ('/' :: []) outDir := by
      simpa [isResolved] using hout
    exact h2
  have hfileEq : file = '/' :: joinSeg (segsOfAbs ('/' :: []) file) := by
    have h2 : file = pathResolve ('/' :: []) file := by
      simpa [isResolved] using hfile
    exact h2
  have houtclean := segsOfAbs_clean ('/' :: []) outDir
  constructor
  · intro h
    simp only [mirrorOutPath]
    rw [if_pos h]
  · simp only [mirrorOutPath]
    by_cases h : isPfx ('.' :: '.' :: []) (pathRelative cwd root file) = true
    · rw [if_pos h]
      have hfclean := segsOfAbs_clean ('/' :: []) file
      rcases List.eq_nil_or_concat (segsOfAbs ('/' :: []) file) with hfs | ⟨L2, t, hcat⟩
      · have hfl : file = ('/' :: []) := by rw [hfileEq, hfs]; rfl
        have hbase : baseName file = [] := by rw [hfl]; rfl
        rw [hbase, houtEq]
        exact pathJoin_clean_inside _ [] houtclean (by intro s hs; cases hs)
      · rw [List.concat_eq_append] at hcat
        have htmem : t ∈ segsOfAbs ('/' :: []) file := by
          rw [hcat]
          exact List.mem_append_right L2 (List.mem_cons_self t [])
        have htc := hfclean t htmem
        have hxs : ∃ xs, file = xs ++ '/' :: t := by
          cases hL : L2 with
          | nil =>
            refine ⟨[], ?_⟩
            rw [hfileEq, hcat, hL]
            rfl
          | cons l ls =>
            refine ⟨'/' :: joinSeg (l :: ls), ?_⟩
            rw [hfileEq, hcat, hL,
              joinSeg_append (l :: ls) (t :: []) (by simp) (by simp)]
            rfl
        obtain ⟨xs, hxseq⟩ := hxs
        have hbase : baseName file = t := by
          rw [hxseq]
          exact baseName_append xs t htc.1.1 htc.2
        rw [hbase, houtEq]
        refine pathJoin_clean_inside _ (t :: []) houtclean ?_
        intro s hs
        rw [List.mem_singleton] at hs
        subst hs
        exact htc
    · rw [if_neg h]
      have hfr : (dropCommon (segsOfAbs cwd root) (segsOfAbs cwd file)).1 = [] := by
        cases hfr2 : (dropCommon (segsOfAbs cwd root) (segsOfAbs cwd file)).1 with
        | nil => rfl
        | cons x fr2 =>
          exfalso
          refine h ?_
          simp only [pathRelative]
          rw [hfr2]
          rw [show (x :: fr2).length = fr2.length + 1 from rfl, List.replicate_succ]
          exact joinSeg_dotdot_head _
      have hrel : pathRelative cwd root file
          = joinSeg (dropCommon (segsOfAbs cwd root) (segsOfAbs cwd file)).2 := by
        simp only [pathRelative]
        rw [hfr]
        rfl
      have htr : ∀ s ∈ (dropCommon (segsOfAbs cwd root) (segsOfAbs cwd file)).2,
          (s ≠ [] ∧ s ≠ ('.' :: []) ∧ s ≠ ('.' :: '.' :: [])) ∧
            ∀ c ∈ s, c ≠ '/' := by
        intro s hs
        exact segsOfAbs_clean cwd file s (dropCommon_right_mem _ _ s hs)
      rw [hrel, houtEq]
      exact pathJoin_clean_inside _ _ houtclean htr

/-- Witness for C7 at an out-of-root source file. -/
theorem writeMirrored_stays_inside_witness :
    isResolved (("/out").toList) = true ∧
    isResolved (("/other/b.ascx").toList) = true ∧
    ((isPfx ('.' :: '.' :: [])
        (pathRelative (("/cwd").toList) (("/root").toList)
          (("/other/b.ascx").toList)) = true →
       mirrorOutPath (("/cwd").toList) (("/out").toList) (("/root").toList)
           (("/other/b.ascx").toList)
         = pathJoin (("/out").toList) (baseName (("/other/b.ascx").toList))) ∧
     insideDir (("/out").toList)
       (mirrorOutPath (("/cwd").toList) (("/out").toList) (("/root").toList)
         (("/other/b.ascx").toList)) = true) :=
  ⟨by decide, by decide,
   writeMirrored_stays_inside _ _ _ _ (by decide) (by decide)⟩

end DnnAscx
